import Mathlib

/-!
Verification of the indexer-sdk event pipeline and delta ledger.

The processor handlers are shallow embeddings of
`src/processor/common.rs` (`IndexerProcessorImpl`), and the in-memory
key-value backend embeds `src/storage/db/memory.rs` (`MemoryDB`).
The live `StorageProcessor` ledger implementation is not part of the
sources (the `storage/memory.rs` file is entirely commented out), so the
ledger operations are modelled from the specification, as marked on each
definition.
-/

namespace IndexerSdk

/-- Transaction identifier: an opaque hash, modelled as a string key. -/
abbrev TxIdType := String

/-- Opaque address bytes. -/
abbrev AddressType := String

/-- Opaque token discriminator. -/
abbrev TokenType := String

/-- Balance amount: a signed scalar. -/
abbrev BalanceType := Int

/-- A decoded transaction.  The core treats the payload as opaque beyond
its identifier, so only the identifier is retained. -/
structure Transaction where
  txid : TxIdType
deriving DecidableEq

/-- The application's verdict on a transaction, from `src/types/delta.rs`:
`tx_id` plus a map address to list of (token, amount) pairs, modelled as an
association list. -/
structure TransactionDelta where
  tx_id : TxIdType
  deltas : List (AddressType × List (TokenType × BalanceType))
deriving DecidableEq

/-- Lifecycle state of a recorded delta. -/
inductive DeltaStatus
  | active
  | confirmed
  | inActive
deriving DecidableEq

/-- A ledger record for one transaction delta: its current status and the
recorded address-token-amount map. -/
structure DeltaRecord where
  status : DeltaStatus
  deltas : List (AddressType × List (TokenType × BalanceType))
deriving DecidableEq

/-- Per-transaction bookkeeping entry: first-seen timestamp and whether the
transaction has been handed to the client. -/
structure SeenRecord where
  ts : Int
  executed : Bool
deriving DecidableEq

/-- Ledger state: the seen column and the delta column, keyed by
transaction id. -/
structure Storage where
  seen : List (TxIdType × SeenRecord)
  deltas : List (TxIdType × DeltaRecord)
deriving DecidableEq

/-- The initially empty ledger. -/
def emptyStorage : Storage := ⟨[], []⟩

/-- First-match lookup in an association list keyed by transaction id. -/
def lookupTx {β : Type} (k : TxIdType) : List (TxIdType × β) → Option β
  | [] => none
  | (k', v) :: rest => if k' = k then some v else lookupTx k rest

/-- Keys of an association list. -/
def keysOf {β : Type} (l : List (TxIdType × β)) : List TxIdType :=
  l.map Prod.fst

/-- Result of the seen-check: the transaction is fresh, or was already
seen with the stored executed flag. -/
inductive SeenStatus
  | fresh
  | seenTx (executed : Bool)
deriving DecidableEq

/-- Whether the seen-check found an existing record. -/
def SeenStatus.is_seen : SeenStatus → Bool
  | .fresh => false
  | .seenTx _ => true

/-- Whether the found record was already executed. -/
def SeenStatus.is_executed : SeenStatus → Bool
  | .fresh => false
  | .seenTx e => e

/-- Modelled from the spec: `seen_and_store_txs` of the ledger (the live
implementation is absent from the sources).  Extracts the tx id and looks
up the seen column; if absent, writes `(tx_id, {ts := now, executed :=
false})` and reports fresh; otherwise reports the stored state. -/
def seen_and_store_txs (now : Int) (tx : Transaction) (s : Storage) :
    SeenStatus × Storage :=
  match lookupTx tx.txid s.seen with
  | none => (.fresh, { s with seen := s.seen ++ [(tx.txid, ⟨now, false⟩)] })
  | some r => (.seenTx r.executed, s)

/-- Sum of the amounts recorded for one token in a token-amount list
(the same token may appear several times; entries are summed). -/
def tokenAmount (t : TokenType) (l : List (TokenType × BalanceType)) : Int :=
  (l.map (fun q => if q.1 = t then q.2 else 0)).sum

/-- Sum of the amounts a delta map records for one (address, token) pair. -/
def deltaAmount (a : AddressType) (t : TokenType)
    (ds : List (AddressType × List (TokenType × BalanceType))) : Int :=
  (ds.map (fun p => if p.1 = a then tokenAmount t p.2 else 0)).sum

/-- Contribution of one ledger record to the reported balance of an
(address, token) pair: counted while status is active or confirmed. -/
def recordAmount (a : AddressType) (t : TokenType) (r : DeltaRecord) : Int :=
  if r.status = .active ∨ r.status = .confirmed then deltaAmount a t r.deltas
  else 0

/-- Modelled from the spec: `add_transaction_delta` of the ledger (the live
implementation is absent from the sources).  Stores the delta under its
tx id with status active; a duplicate delta for a tx id that already has a
record (in particular a terminal one) is ignored idempotently. -/
def add_transaction_delta (d : TransactionDelta) (s : Storage) : Storage :=
  match lookupTx d.tx_id s.deltas with
  | some _ => s
  | none => { s with deltas := s.deltas ++ [(d.tx_id, ⟨.active, d.deltas⟩)] }

/-- Rewrites the status of the entries recorded for one tx id, keeping the
recorded delta map. -/
def setStatus (x : TxIdType) (target : DeltaStatus) :
    List (TxIdType × DeltaRecord) → List (TxIdType × DeltaRecord)
  | [] => []
  | (k, r) :: rest =>
      if k = x then (k, ⟨target, r.deltas⟩) :: setStatus x target rest
      else (k, r) :: setStatus x target rest

/-- Modelled from the spec: `remove_transaction_delta` of the ledger (the
live implementation is absent from the sources).  Mutates the record's
status to the target if it is currently active; repeat calls and unknown tx
ids are silent no-ops. -/
def remove_transaction_delta (x : TxIdType) (target : DeltaStatus) (s : Storage) :
    Storage :=
  match lookupTx x s.deltas with
  | none => s
  | some r =>
      if r.status = .active then { s with deltas := setStatus x target s.deltas }
      else s

/-- Modelled from the spec: `get_balance` of the ledger (the source path is
stubbed).  Sums all active and confirmed deltas touching the pair. -/
def get_balance (a : AddressType) (t : TokenType) (s : Storage) : Int :=
  (s.deltas.map (fun p => recordAmount a t p.2)).sum

/-- Modelled from the spec: `get_all_un_consumed_txs` of the ledger (the
live implementation is absent from the sources).  Scans the seen column,
yielding `(tx_id, first_seen_ts)` for entries not yet executed or whose
delta is still active. -/
def get_all_un_consumed_txs (s : Storage) : List (TxIdType × Int) :=
  s.seen.filterMap (fun p =>
    if (!p.2.executed ||
        (match lookupTx p.1 s.deltas with
         | some r => decide (r.status = .active)
         | none => false)) then
      some (p.1, p.2.ts)
    else none)

/-- Events pushed from the core to the embedding client
(`ClientEvent`; the variant set follows the client contract). -/
inductive ClientEvent
  | transaction (tx : Transaction)
  | txDroped (x : TxIdType)
  | txConfirmed (x : TxIdType)
  | getHeight
deriving DecidableEq

/-- Outcome of parsing one ZMQ frame.  `parse_zmq_data` calls
`deserialize(..).expect(..)`, so a frame that does not deserialize panics
instead of being reported as absent. -/
inductive ParseOutcome
  | panicked (msg : String)
  | parsed (txid : TxIdType) (tx : Transaction)
deriving DecidableEq

/-- From `IndexerProcessorImpl::parse_zmq_data`: deserialize the frame and
extract the tx id; deserialization failure panics with the `expect`
message.  Consensus deserialization itself is external, passed in as
`deserializeTx`. -/
def parse_zmq_data (deserializeTx : List Nat → Option Transaction)
    (data : List Nat) : ParseOutcome :=
  match deserializeTx data with
  | none => .panicked "Failed to deserialize transaction"
  | some tx => .parsed tx.txid tx

/-- Outcome of handling one `NewTxComing` event: the handler either panics
(propagating a parse panic) or returns the new ledger state together with
the client events it sent. -/
inductive NewTxOutcome
  | panicked (msg : String)
  | ok (s : Storage) (events : List ClientEvent)
deriving DecidableEq

/-- From `IndexerProcessorImpl::do_handle_new_tx_coming`: parse the frame,
run the seen-check, and drop or emit `ClientEvent::transaction` according
to the seen/executed/from-restore combination. -/
def do_handle_new_tx_coming (deserializeTx : List Nat → Option Transaction)
    (data : List Nat) (from_restore : Bool) (now : Int) (s : Storage) :
    NewTxOutcome :=
  match parse_zmq_data deserializeTx data with
  | .panicked msg => .panicked msg
  | .parsed _ tx =>
      let res := seen_and_store_txs now tx s
      if res.1.is_seen then
        if from_restore then
          if res.1.is_executed then .ok res.2 []
          else .ok res.2 [.transaction tx]
        else .ok res.2 []
      else .ok res.2 [.transaction tx]

/-- Repeated delivery of the same frame: the first delivery carries the
given from-restore flag, all later deliveries come from the live ZMQ feed
(from-restore false).  Collects the ledger state and all client events. -/
def do_handle_new_tx_repeated (deserializeTx : List Nat → Option Transaction)
    (data : List Nat) (now : Int) (fr : Bool) :
    Nat → Storage → Storage × List ClientEvent
  | 0, s => (s, [])
  | n + 1, s =>
      match do_handle_new_tx_coming deserializeTx data fr now s with
      | .panicked _ => (s, [])
      | .ok s' evs =>
          let r := do_handle_new_tx_repeated deserializeTx data now false n s'
          (r.1, evs ++ r.2)

/-- Number of `transaction` client events carrying the given tx id. -/
def countTransaction (x : TxIdType) (evs : List ClientEvent) : Nat :=
  (evs.filter (fun e =>
    match e with
    | .transaction tx => tx.txid = x
    | _ => false)).length

/-- From `IndexerProcessorImpl::do_handle_update_delta`: record the delta. -/
def do_handle_update_delta (d : TransactionDelta) (s : Storage) : Storage :=
  add_transaction_delta d s

/-- From `IndexerProcessorImpl::do_handle_tx_confirmed`: move the delta to
the given terminal status. -/
def do_handle_tx_confirmed (x : TxIdType) (status : DeltaStatus) (s : Storage) :
    Storage :=
  remove_transaction_delta x status s

/-- From `IndexerProcessorImpl::do_handle_tx_removed`, generic in the
storage operation like the Rust processor is generic in
`T: StorageProcessor`: move the delta to inactive, then emit
`ClientEvent::txDroped`; a storage error propagates before the emit. -/
def do_handle_tx_removedE
    (removeF : TxIdType → DeltaStatus → Storage → Except String Storage)
    (x : TxIdType) (s : Storage) : Except String (Storage × List ClientEvent) :=
  match removeF x .inActive s with
  | .error e => .error e
  | .ok s' => .ok (s', [.txDroped x])

/-- From `IndexerProcessorImpl::do_handle_report_reorg`, generic in the
storage operation: apply tx-removed semantics to each listed tx id; a
per-entry error is logged and the batch continues. -/
def do_handle_report_reorgE
    (removeF : TxIdType → DeltaStatus → Storage → Except String Storage) :
    List TxIdType → Storage → Storage × List ClientEvent
  | [], s => (s, [])
  | x :: rest, s =>
      match do_handle_tx_removedE removeF x s with
      | .error _ => do_handle_report_reorgE removeF rest s
      | .ok (s', evs) =>
          let r := do_handle_report_reorgE removeF rest s'
          (r.1, evs ++ r.2)

/-- The modelled ledger's remove operation, which never fails. -/
def okRemove : TxIdType → DeltaStatus → Storage → Except String Storage :=
  fun x st s => .ok (remove_transaction_delta x st s)

/-- `do_handle_tx_removed` at the modelled ledger. -/
def do_handle_tx_removed (x : TxIdType) (s : Storage) :
    Storage × List ClientEvent :=
  (remove_transaction_delta x .inActive s, [.txDroped x])

/-- `do_handle_report_reorg` at the modelled ledger. -/
def do_handle_report_reorg (txs : List TxIdType) (s : Storage) :
    Storage × List ClientEvent :=
  do_handle_report_reorgE okRemove txs s

/-- A remove operation that fails exactly on a designated set of tx ids,
used to exercise the per-entry error handling of the reorg batch. -/
def failRemove (bad : List TxIdType) :
    TxIdType → DeltaStatus → Storage → Except String Storage :=
  fun x st s =>
    if x ∈ bad then .error "storage failure"
    else .ok (remove_transaction_delta x st s)

/-- The ledger-affecting indexer events of the balance invariant:
`UpdateDelta`, `TxConfirmed` and `TxRemoved`. -/
inductive LedgerEvent
  | updateDelta (d : TransactionDelta)
  | txConfirmedEv (x : TxIdType)
  | txRemovedEv (x : TxIdType)

/-- Dispatch of one ledger event, as `do_handle_event` dispatches it. -/
def applyLedgerEvent (s : Storage) : LedgerEvent → Storage
  | .updateDelta d => do_handle_update_delta d s
  | .txConfirmedEv x => do_handle_tx_confirmed x .confirmed s
  | .txRemovedEv x => (do_handle_tx_removed x s).1

/-- A whole event sequence applied in order. -/
def applyLedgerEvents (es : List LedgerEvent) (s : Storage) : Storage :=
  es.foldl applyLedgerEvent s

/-- Specification-side transition of the record that one tx id currently
has, following the spec's words: a delta is recorded once with status
active while no record exists, a confirm or remove retargets the status
only while it is active, and nothing is ever deleted. -/
def specStep (x : TxIdType) (acc : Option DeltaRecord) :
    LedgerEvent → Option DeltaRecord
  | .updateDelta d =>
      match acc with
      | none => if d.tx_id = x then some ⟨.active, d.deltas⟩ else none
      | some r => some r
  | .txConfirmedEv y =>
      match acc with
      | none => none
      | some r =>
          if y = x ∧ r.status = .active then some ⟨.confirmed, r.deltas⟩
          else some r
  | .txRemovedEv y =>
      match acc with
      | none => none
      | some r =>
          if y = x ∧ r.status = .active then some ⟨.inActive, r.deltas⟩
          else some r

/-- Specification-side view: the record a tx id holds after a history of
ledger events, derived from the history alone. -/
def specRecord (es : List LedgerEvent) (x : TxIdType) : Option DeltaRecord :=
  es.foldl (specStep x) none

/-- The tx id an event records a delta for, when it is an `UpdateDelta`. -/
def eventTxIdOf : LedgerEvent → Option TxIdType
  | .updateDelta d => some d.tx_id
  | _ => none

/-- The tx ids for which a history carries an `UpdateDelta` event. -/
def eventTxIds (es : List LedgerEvent) : List TxIdType :=
  es.filterMap eventTxIdOf

/-- Specification-side balance: the sum, over every tx id a delta was
recorded for, of the amounts its current record contributes while in
status active or confirmed. -/
def specBalance (es : List LedgerEvent) (a : AddressType) (t : TokenType) : Int :=
  ((eventTxIds es).dedup.map (fun x =>
    match specRecord es x with
    | some r => recordAmount a t r
    | none => 0)).sum

/-- Observable actions of the mempool-restore startup hook: injecting one
restore event, or raising the ready flag. -/
inductive RestoreAction
  | sendRestore (x : TxIdType)
  | setReadyFlag
deriving DecidableEq

/-- From `IndexerProcessorImpl::do_handle_sync_mempool`: read the
unconsumed ledger entries, append those not in the node mempool to the
mempool pairs, sort everything by timestamp, inject one restore event per
entry, then raise the ready flag.  The node mempool (tx id and timestamp
pairs, from `get_raw_mempool_verbose`) is an input. -/
def do_handle_sync_mempool (mempool : List (TxIdType × Int)) (s : Storage) :
    List RestoreAction :=
  let all_unconsumed := get_all_un_consumed_txs s
  let append := all_unconsumed.filter
    (fun p => decide (p.1 ∉ mempool.map Prod.fst))
  let sorted_pairs := (mempool ++ append).mergeSort (fun a b => a.2 ≤ b.2)
  sorted_pairs.map (fun p => RestoreAction.sendRestore p.1)
    ++ [RestoreAction.setReadyFlag]

/-- Byte-string keys of the key-value backend. -/
abbrev KVKey := List Nat

/-- Byte-string values of the key-value backend. -/
abbrev KVValue := List Nat

/-- Insert-or-replace in the backing map of `MemoryDB`. -/
def setKV (k : KVKey) (v : KVValue) : List (KVKey × KVValue) → List (KVKey × KVValue)
  | [] => [(k, v)]
  | (k', v') :: rest =>
      if k' = k then (k, v) :: rest else (k', v') :: setKV k v rest

/-- Removal from the backing map of `MemoryDB`. -/
def delKV (k : KVKey) : List (KVKey × KVValue) → List (KVKey × KVValue)
  | [] => []
  | (k', v) :: rest => if k' = k then delKV k rest else (k', v) :: delKV k rest

/-- Lookup in the backing map of `MemoryDB`. -/
def getKV (k : KVKey) : List (KVKey × KVValue) → Option KVValue
  | [] => none
  | (k', v) :: rest => if k' = k then some v else getKV k rest

/-- The in-memory key-value backend from `storage/db/memory.rs`: a map
from byte keys to byte values. -/
structure MemoryDB where
  datas : List (KVKey × KVValue)
deriving DecidableEq

/-- A freshly constructed, never-written backend. -/
def emptyMemoryDB : MemoryDB := ⟨[]⟩

/-- One operation of a write batch: a put, or a delete (a pair whose value
side is absent). -/
inductive BatchOp
  | put (k : KVKey) (v : KVValue)
  | del (k : KVKey)
deriving DecidableEq

/-- From `MemoryDB::set`: insert the pair; always succeeds. -/
def MemoryDB.set (db : MemoryDB) (k : KVKey) (v : KVValue) :
    Except String MemoryDB :=
  .ok ⟨setKV k v db.datas⟩

/-- From `MemoryDB::get`: return the stored value; always succeeds. -/
def MemoryDB.get (db : MemoryDB) (k : KVKey) : Except String (Option KVValue) :=
  .ok (getKV k db.datas)

/-- One step of the write-batch loop body: a put is an insert, a delete a
removal. -/
def applyBatchOp (d : List (KVKey × KVValue)) : BatchOp → List (KVKey × KVValue)
  | .put k v => setKV k v d
  | .del k => delKV k d

/-- From `MemoryDB::write_batch`: apply each batch entry in order, a put
as an insert and a delete as a removal; always succeeds. -/
def MemoryDB.write_batch (db : MemoryDB) (ops : List BatchOp) :
    Except String MemoryDB :=
  .ok ⟨ops.foldl applyBatchOp db.datas⟩

/-- The effect of one batch entry on the value one key maps to. -/
def batchOpEffect (k : KVKey) (acc : Option KVValue) : BatchOp → Option KVValue
  | .put k' v => if k' = k then some v else acc
  | .del k' => if k' = k then none else acc

/-- The value a batch leaves for one key, folded over the batch entries
starting from the value the key had before. -/
def batchEffect (k : KVKey) (ops : List BatchOp) (before : Option KVValue) :
    Option KVValue :=
  ops.foldl (batchOpEffect k) before

/-! Association-list lemmas shared by the ledger and the KV backend. -/

lemma lookupTx_eq_none_iff {β : Type} (k : TxIdType) :
    ∀ l : List (TxIdType × β), lookupTx k l = none ↔ k ∉ keysOf l
  | [] => by simp [lookupTx, keysOf]
  | (k', v) :: rest => by
      simp only [lookupTx, keysOf, List.map_cons, List.mem_cons]
      by_cases h : k' = k
      · subst h
        simp
      · rw [if_neg h, lookupTx_eq_none_iff k rest]
        simp only [keysOf]
        constructor
        · intro hn hc
          cases hc with
          | inl heq => exact h heq.symm
          | inr hmem => exact hn hmem
        · intro hn hmem
          exact hn (Or.inr hmem)

lemma lookupTx_append_of_none {β : Type} {k : TxIdType}
    {l l' : List (TxIdType × β)} (h : lookupTx k l = none) :
    lookupTx k (l ++ l') = lookupTx k l' := by
  induction l with
  | nil => rfl
  | cons p rest ih =>
      obtain ⟨k', v⟩ := p
      by_cases hk : k' = k
      · simp [lookupTx, hk] at h
      · simp only [lookupTx, hk, if_false, List.cons_append] at h ⊢
        exact ih h

lemma lookupTx_append_of_some {β : Type} {k : TxIdType}
    {l l' : List (TxIdType × β)} {v : β} (h : lookupTx k l = some v) :
    lookupTx k (l ++ l') = some v := by
  induction l with
  | nil => simp [lookupTx] at h
  | cons p rest ih =>
      obtain ⟨k', w⟩ := p
      by_cases hk : k' = k
      · simp only [lookupTx, hk, if_true] at h ⊢
        simpa using h
      · simp only [lookupTx, hk, if_false, List.cons_append] at h ⊢
        exact ih h

lemma getKV_setKV_self (k : KVKey) (v : KVValue) (l : List (KVKey × KVValue)) :
    getKV k (setKV k v l) = some v := by
  induction l with
  | nil => simp [setKV, getKV]
  | cons p rest ih =>
      obtain ⟨k', v'⟩ := p
      by_cases h : k' = k
      · simp [setKV, getKV, h]
      · simp [setKV, getKV, h, ih]

lemma getKV_setKV_ne (k k' : KVKey) (v : KVValue) (l : List (KVKey × KVValue))
    (h : k' ≠ k) : getKV k (setKV k' v l) = getKV k l := by
  induction l with
  | nil => simp [setKV, getKV, h]
  | cons p rest ih =>
      obtain ⟨k0, v0⟩ := p
      by_cases h0 : k0 = k'
      · subst h0
        simp [setKV, getKV, h]
      · simp [setKV, getKV, h0, ih]

lemma getKV_delKV_self (k : KVKey) (l : List (KVKey × KVValue)) :
    getKV k (delKV k l) = none := by
  induction l with
  | nil => rfl
  | cons p rest ih =>
      obtain ⟨k0, v0⟩ := p
      by_cases h0 : k0 = k
      · simpa [delKV, h0] using ih
      · simpa [delKV, getKV, h0] using ih

lemma getKV_delKV_ne (k k' : KVKey) (l : List (KVKey × KVValue))
    (h : k' ≠ k) : getKV k (delKV k' l) = getKV k l := by
  induction l with
  | nil => rfl
  | cons p rest ih =>
      obtain ⟨k0, v0⟩ := p
      by_cases h0 : k0 = k'
      · subst h0
        have hk : k0 ≠ k := h
        simp [delKV, getKV, hk, ih]
      · simp [delKV, getKV, h0, ih]

lemma getKV_applyBatchOp (k : KVKey) (l : List (KVKey × KVValue)) (op : BatchOp) :
    getKV k (applyBatchOp l op) = batchOpEffect k (getKV k l) op := by
  cases op with
  | put k' v =>
      by_cases h : k' = k
      · subst h
        simp [applyBatchOp, batchOpEffect, getKV_setKV_self]
      · simp [applyBatchOp, batchOpEffect, h, getKV_setKV_ne k k' v l h]
  | del k' =>
      by_cases h : k' = k
      · subst h
        simp [applyBatchOp, batchOpEffect, getKV_delKV_self]
      · simp [applyBatchOp, batchOpEffect, h, getKV_delKV_ne k k' l h]

lemma getKV_foldl_batch (k : KVKey) (ops : List BatchOp) :
    ∀ l : List (KVKey × KVValue),
      getKV k (ops.foldl applyBatchOp l) = batchEffect k ops (getKV k l) := by
  induction ops with
  | nil => intro l; simp [batchEffect]
  | cons op rest ih =>
      intro l
      simp only [List.foldl_cons, batchEffect, ih (applyBatchOp l op),
        getKV_applyBatchOp]

/-- Claim C10: for the in-memory KV backend, `get` after `set` returns the
written value, `get` on a never-written backend returns nothing, a write
batch applies each put as an insert and each delete as a removal so that a
later `get` reflects the last batch operation touching the key, and all
three operations always succeed. -/
theorem c10_memory_db_kv_contract (db : MemoryDB) (k k2 : KVKey) (v : KVValue)
    (ops : List BatchOp) :
    (∃ db', db.set k v = .ok db' ∧ db'.get k = .ok (some v))
  ∧ emptyMemoryDB.get k2 = .ok none
  ∧ (∃ db', db.write_batch ops = .ok db'
      ∧ db'.get k2 = .ok (batchEffect k2 ops (getKV k2 db.datas))) := by
  refine ⟨⟨⟨setKV k v db.datas⟩, rfl, ?_⟩, rfl, ⟨⟨ops.foldl applyBatchOp db.datas⟩, rfl, ?_⟩⟩
  · simp [MemoryDB.get, getKV_setKV_self]
  · simp [MemoryDB.get, getKV_foldl_batch]

/-! Ledger lemmas: status rewriting and the remove/add operations. -/

lemma keysOf_setStatus (x : TxIdType) (st : DeltaStatus)
    (l : List (TxIdType × DeltaRecord)) :
    keysOf (setStatus x st l) = keysOf l := by
  induction l with
  | nil => rfl
  | cons p rest ih =>
      obtain ⟨k, r⟩ := p
      by_cases h : k = x
      · simp only [setStatus, if_pos h, keysOf, List.map_cons]
        simpa [keysOf] using ih
      · simp only [setStatus, if_neg h, keysOf, List.map_cons]
        simpa [keysOf] using ih

lemma lookupTx_setStatus_self (x : TxIdType) (st : DeltaStatus)
    (l : List (TxIdType × DeltaRecord)) :
    lookupTx x (setStatus x st l)
      = (lookupTx x l).map (fun r => ⟨st, r.deltas⟩) := by
  induction l with
  | nil => rfl
  | cons p rest ih =>
      obtain ⟨k, r⟩ := p
      by_cases h : k = x
      · simp [setStatus, lookupTx, h]
      · simp [setStatus, lookupTx, h, ih]

lemma lookupTx_setStatus_ne (x y : TxIdType) (st : DeltaStatus)
    (hxy : x ≠ y) (l : List (TxIdType × DeltaRecord)) :
    lookupTx x (setStatus y st l) = lookupTx x l := by
  induction l with
  | nil => rfl
  | cons p rest ih =>
      obtain ⟨k, r⟩ := p
      have hyx : ¬y = x := fun he => hxy he.symm
      have hxy' : ¬x = y := hxy
      by_cases h : k = y
      · simp [setStatus, lookupTx, h, hyx, ih]
      · by_cases hx : k = x
        · simp [setStatus, lookupTx, h, hx, hxy']
        · simp [setStatus, lookupTx, h, hx, ih]

lemma remove_noop_of_unknown (x : TxIdType) (st : DeltaStatus) (s : Storage)
    (h : lookupTx x s.deltas = none) :
    remove_transaction_delta x st s = s := by
  simp [remove_transaction_delta, h]

lemma add_noop_of_some (d : TransactionDelta) (s : Storage) (r : DeltaRecord)
    (h : lookupTx d.tx_id s.deltas = some r) :
    add_transaction_delta d s = s := by
  simp [add_transaction_delta, h]

lemma remove_remove (x : TxIdType) (st st' : DeltaStatus) (s : Storage)
    (hst : st ≠ .active) :
    remove_transaction_delta x st' (remove_transaction_delta x st s)
      = remove_transaction_delta x st s := by
  cases h : lookupTx x s.deltas with
  | none =>
      rw [remove_noop_of_unknown x st s h, remove_noop_of_unknown x st' s h]
  | some r =>
      by_cases hr : r.status = .active
      · have h1 : remove_transaction_delta x st s
            = { s with deltas := setStatus x st s.deltas } := by
          simp [remove_transaction_delta, h, hr]
        rw [h1]
        have h2 : lookupTx x (setStatus x st s.deltas) = some ⟨st, r.deltas⟩ := by
          rw [lookupTx_setStatus_self, h]
          rfl
        simp [remove_transaction_delta, h2, hst]
      · have h1 : remove_transaction_delta x st s = s := by
          simp [remove_transaction_delta, h, hr]
        rw [h1]
        simp [remove_transaction_delta, h, hr]

/-- Claim C3: `remove_transaction_delta` is idempotent on repeat — a
second call with the same tx id (any terminal target on the first call)
leaves the ledger state and every reported balance unchanged — and a tx id
with no recorded delta is a silent no-op. -/
theorem c3_remove_transaction_delta_idempotent (x : TxIdType)
    (st st' : DeltaStatus) (s : Storage)
    (hst : st = .confirmed ∨ st = .inActive) :
    remove_transaction_delta x st' (remove_transaction_delta x st s)
      = remove_transaction_delta x st s
  ∧ (∀ a t, get_balance a t
        (remove_transaction_delta x st' (remove_transaction_delta x st s))
      = get_balance a t (remove_transaction_delta x st s))
  ∧ (lookupTx x s.deltas = none → remove_transaction_delta x st s = s) := by
  have hact : st ≠ .active := by
    cases hst with
    | inl h => rw [h]; intro hc; cases hc
    | inr h => rw [h]; intro hc; cases hc
  refine ⟨remove_remove x st st' s hact, ?_, remove_noop_of_unknown x st s⟩
  intro a t
  rw [remove_remove x st st' s hact]

theorem c3_remove_transaction_delta_idempotent_witness :
    (remove_transaction_delta "t1" .confirmed
        (remove_transaction_delta "t1" .confirmed emptyStorage)
      = remove_transaction_delta "t1" .confirmed emptyStorage)
  ∧ (∀ a t, get_balance a t
        (remove_transaction_delta "t1" .confirmed
          (remove_transaction_delta "t1" .confirmed emptyStorage))
      = get_balance a t (remove_transaction_delta "t1" .confirmed emptyStorage))
  ∧ (lookupTx "t1" emptyStorage.deltas = none →
      remove_transaction_delta "t1" .confirmed emptyStorage = emptyStorage) :=
  c3_remove_transaction_delta_idempotent "t1" .confirmed .confirmed emptyStorage
    (Or.inl rfl)

/-- Claim C4: `add_transaction_delta` stores the delta with status active,
is a no-op when a terminal record already exists for the tx id, recording
the same delta twice changes neither the ledger nor any balance, and the
at-most-one-record-per-tx-id key invariant is preserved. -/
theorem c4_add_transaction_delta_contract (d : TransactionDelta) (s : Storage) :
    (lookupTx d.tx_id s.deltas = none →
      lookupTx d.tx_id (add_transaction_delta d s).deltas
        = some ⟨.active, d.deltas⟩)
  ∧ (∀ r, lookupTx d.tx_id s.deltas = some r →
      r.status = .confirmed ∨ r.status = .inActive →
      add_transaction_delta d s = s)
  ∧ add_transaction_delta d (add_transaction_delta d s)
      = add_transaction_delta d s
  ∧ (∀ a t, get_balance a t (add_transaction_delta d (add_transaction_delta d s))
      = get_balance a t (add_transaction_delta d s))
  ∧ ((keysOf s.deltas).Nodup → (keysOf (add_transaction_delta d s).deltas).Nodup) := by
  have hstore : lookupTx d.tx_id s.deltas = none →
      lookupTx d.tx_id (add_transaction_delta d s).deltas
        = some ⟨.active, d.deltas⟩ := by
    intro h
    simp only [add_transaction_delta, h]
    rw [lookupTx_append_of_none h]
    simp [lookupTx]
  have hidem : add_transaction_delta d (add_transaction_delta d s)
      = add_transaction_delta d s := by
    cases h : lookupTx d.tx_id s.deltas with
    | some r =>
        have hs : add_transaction_delta d s = s := add_noop_of_some d s r h
        rw [hs]
        exact hs
    | none =>
        exact add_noop_of_some d _ _ (hstore h)
  refine ⟨hstore, ?_, hidem, ?_, ?_⟩
  · intro r h _
    exact add_noop_of_some d s r h
  · intro a t
    rw [hidem]
  · intro hnd
    cases h : lookupTx d.tx_id s.deltas with
    | some r =>
        have hs : add_transaction_delta d s = s := by
          simp [add_transaction_delta, h]
        rw [hs]
        exact hnd
    | none =>
        have hmem : d.tx_id ∉ keysOf s.deltas := (lookupTx_eq_none_iff _ _).mp h
        simp only [add_transaction_delta, h]
        simp only [keysOf, List.map_append, List.map_cons, List.map_nil]
        rw [List.nodup_append]
        refine ⟨hnd, List.nodup_singleton _, ?_⟩
        intro a ha hb
        simp only [List.mem_singleton] at hb
        subst hb
        exact hmem ha

theorem c4_add_transaction_delta_contract_witness :
    (lookupTx "t1" emptyStorage.deltas = none →
      lookupTx "t1" (add_transaction_delta ⟨"t1", []⟩ emptyStorage).deltas
        = some ⟨.active, []⟩)
  ∧ (∀ r, lookupTx "t1" emptyStorage.deltas = some r →
      r.status = .confirmed ∨ r.status = .inActive →
      add_transaction_delta ⟨"t1", []⟩ emptyStorage = emptyStorage)
  ∧ add_transaction_delta ⟨"t1", []⟩
        (add_transaction_delta ⟨"t1", []⟩ emptyStorage)
      = add_transaction_delta ⟨"t1", []⟩ emptyStorage
  ∧ (∀ a t, get_balance a t (add_transaction_delta ⟨"t1", []⟩
        (add_transaction_delta ⟨"t1", []⟩ emptyStorage))
      = get_balance a t (add_transaction_delta ⟨"t1", []⟩ emptyStorage))
  ∧ ((keysOf emptyStorage.deltas).Nodup →
      (keysOf (add_transaction_delta ⟨"t1", []⟩ emptyStorage).deltas).Nodup) :=
  c4_add_transaction_delta_contract ⟨"t1", []⟩ emptyStorage

/-! Reorg handling: per-entry error tolerance and idempotence. -/

/-- Claim C9: every entry of a `ReportReorg` batch receives tx-removed
semantics — its delta is retargeted to inactive via
`remove_transaction_delta` and a `txDroped` event is emitted — and a
storage error on one entry (injected here for an arbitrary set of failing
tx ids) skips only that entry's emission, never the rest of the batch. -/
theorem c9_report_reorg_processes_every_entry (bad : List TxIdType)
    (txs : List TxIdType) (s : Storage) :
    do_handle_report_reorgE (failRemove bad) txs s
      = (txs.foldl (fun acc x =>
            if x ∈ bad then acc else remove_transaction_delta x .inActive acc) s,
         (txs.filter (fun x => decide (x ∉ bad))).map ClientEvent.txDroped) := by
  induction txs generalizing s with
  | nil => rfl
  | cons x rest ih =>
      by_cases hx : x ∈ bad
      · simp [do_handle_report_reorgE, do_handle_tx_removedE, failRemove, hx,
          ih, List.filter_cons]
      · simp [do_handle_report_reorgE, do_handle_tx_removedE, failRemove, hx,
          ih, List.filter_cons]

/-- Claim C7 as stated is false: the client events differ, because the
processor emits one `txDroped` per list entry unconditionally. -/
theorem c7_reorg_triple_counterexample :
    (do_handle_report_reorg ["t1", "t1", "t1"] emptyStorage).2
      ≠ (do_handle_report_reorg ["t1"] emptyStorage).2 := by
  decide

/-- Claim C7, amended: `ReportReorg [x, x, x]` has the same effect as
`ReportReorg [x]` on the ledger state and on every reported balance, but
emits one `txDroped x` client event per list entry — three versus one. -/
theorem c7_reorg_idempotent_on_state (x : TxIdType) (s : Storage) :
    (do_handle_report_reorg [x, x, x] s).1 = (do_handle_report_reorg [x] s).1
  ∧ (∀ a t, get_balance a t (do_handle_report_reorg [x, x, x] s).1
      = get_balance a t (do_handle_report_reorg [x] s).1)
  ∧ (do_handle_report_reorg [x, x, x] s).2
      = [.txDroped x, .txDroped x, .txDroped x]
  ∧ (do_handle_report_reorg [x] s).2 = [.txDroped x] := by
  have hact : DeltaStatus.inActive ≠ DeltaStatus.active := by
    intro hc; cases hc
  have hstate : (do_handle_report_reorg [x, x, x] s).1
      = (do_handle_report_reorg [x] s).1 := by
    simp only [do_handle_report_reorg, do_handle_report_reorgE,
      do_handle_tx_removedE, okRemove]
    rw [remove_remove x .inActive .inActive s hact,
      remove_remove x .inActive .inActive s hact]
  refine ⟨hstate, ?_, ?_, ?_⟩
  · intro a t
    rw [hstate]
  · simp [do_handle_report_reorg, do_handle_report_reorgE,
      do_handle_tx_removedE, okRemove]
  · simp [do_handle_report_reorg, do_handle_report_reorgE,
      do_handle_tx_removedE, okRemove]

/-! New-transaction handling: deduplication within one run. -/

lemma new_tx_repeated_seen (deserializeTx : List Nat → Option Transaction)
    (data : List Nat) (tx : Transaction) (now : Int)
    (hdec : deserializeTx data = some tx) :
    ∀ (m : Nat) (s : Storage) (r : SeenRecord),
      lookupTx tx.txid s.seen = some r →
      do_handle_new_tx_repeated deserializeTx data now false m s = (s, []) := by
  intro m
  induction m with
  | zero => intro s r _; rfl
  | succ n ih =>
      intro s r h
      have hstep : do_handle_new_tx_coming deserializeTx data false now s
          = .ok s [] := by
        simp [do_handle_new_tx_coming, parse_zmq_data, hdec,
          seen_and_store_txs, h, SeenStatus.is_seen]
      simp [do_handle_new_tx_repeated, hstep, ih s r h]

/-- Claim C2: delivering the same transaction frame N times (N at least 1,
live deliveries after the first) emits exactly one transaction client
event for its tx id: the first delivery emits it, every later delivery
finds the tx id in the seen store and is dropped. -/
theorem c2_new_tx_exactly_once (deserializeTx : List Nat → Option Transaction)
    (data : List Nat) (tx : Transaction) (now : Int) (fr : Bool) (N : Nat)
    (s : Storage) (hdec : deserializeTx data = some tx) (hN : 1 ≤ N)
    (hfresh : lookupTx tx.txid s.seen = none) :
    (do_handle_new_tx_repeated deserializeTx data now fr N s).2
      = [ClientEvent.transaction tx]
  ∧ countTransaction tx.txid
      (do_handle_new_tx_repeated deserializeTx data now fr N s).2 = 1 := by
  obtain ⟨m, rfl⟩ : ∃ m, N = m + 1 := by
    cases N with
    | zero => cases hN
    | succ m => exact ⟨m, rfl⟩
  have hstep : do_handle_new_tx_coming deserializeTx data fr now s
      = .ok { s with seen := s.seen ++ [(tx.txid, ⟨now, false⟩)] }
          [.transaction tx] := by
    simp [do_handle_new_tx_coming, parse_zmq_data, hdec,
      seen_and_store_txs, hfresh, SeenStatus.is_seen]
  have hlook : lookupTx tx.txid
      ({ s with seen := s.seen ++ [(tx.txid, ⟨now, false⟩)] } : Storage).seen
      = some ⟨now, false⟩ := by
    show lookupTx tx.txid (s.seen ++ [(tx.txid, ⟨now, false⟩)])
      = some ⟨now, false⟩
    rw [lookupTx_append_of_none hfresh]
    simp [lookupTx]
  have hevents : (do_handle_new_tx_repeated deserializeTx data now fr (m + 1) s).2
      = [ClientEvent.transaction tx] := by
    simp [do_handle_new_tx_repeated, hstep,
      new_tx_repeated_seen deserializeTx data tx now hdec m _ _ hlook]
  refine ⟨hevents, ?_⟩
  rw [hevents]
  simp [countTransaction]

theorem c2_new_tx_exactly_once_witness :
    (do_handle_new_tx_repeated (fun _ => some ⟨"t1"⟩) [] 0 false 2
        emptyStorage).2 = [ClientEvent.transaction ⟨"t1"⟩]
  ∧ countTransaction "t1"
      (do_handle_new_tx_repeated (fun _ => some ⟨"t1"⟩) [] 0 false 2
        emptyStorage).2 = 1 :=
  c2_new_tx_exactly_once (fun _ => some ⟨"t1"⟩) [] ⟨"t1"⟩ 0 false 2
    emptyStorage rfl (by decide) rfl

/-- Claim C5 is contradicted by the code: `parse_zmq_data` calls
`deserialize(..).expect(..)`, so a frame that does not deserialize panics
instead of being logged and skipped.  Evaluated here at a failing frame. -/
theorem c5_decode_failure_panics :
    do_handle_new_tx_coming (fun _ => none) [] false 0 emptyStorage
      = .panicked "Failed to deserialize transaction" := rfl

/-- Claim C8 is contradicted by the code: handling a fresh transaction
emits the transaction client event, but the stored seen record keeps
`executed = false` — the handler never invokes any mark-executed
operation.  Evaluated here at a fresh transaction. -/
theorem c8_executed_never_marked :
    do_handle_new_tx_coming (fun _ => some ⟨"t1"⟩) [] false 7 emptyStorage
      = .ok ⟨[("t1", ⟨7, false⟩)], []⟩ [.transaction ⟨"t1"⟩] := by
  rfl

/-! Mempool restore: one injection per union element, timestamp order,
ready flag last. -/

lemma keys_filterMap_if {γ : Type} (cond : TxIdType × SeenRecord → Bool)
    (g : TxIdType × SeenRecord → γ) :
    ∀ l : List (TxIdType × SeenRecord),
      List.Sublist
        ((l.filterMap (fun p => if cond p then some (p.1, g p) else none)).map
          Prod.fst)
        (l.map Prod.fst)
  | [] => List.Sublist.refl []
  | p :: rest => by
      cases hc : cond p with
      | true =>
          simp only [List.filterMap_cons, hc, if_pos, List.map_cons]
          exact (keys_filterMap_if cond g rest).cons₂ p.1
      | false =>
          simp only [List.filterMap_cons, hc, if_neg, List.map_cons]
          exact (keys_filterMap_if cond g rest).cons p.1

lemma unconsumed_keys_sublist (s : Storage) :
    List.Sublist ((get_all_un_consumed_txs s).map Prod.fst) (keysOf s.seen) := by
  unfold get_all_un_consumed_txs keysOf
  exact keys_filterMap_if _ (fun p => p.2.ts) s.seen

/-- Claim C6: the restore hook injects exactly one restore event per
element of the union of the node mempool and the ledger's unconsumed
entries (no tx id twice), the injected pairs are sorted by nondecreasing
timestamp (mempool timestamp for mempool entries, first-seen timestamp
for ledger-only entries), and the ready flag is raised strictly after
every injection. -/
theorem c6_sync_mempool_restore (mempool : List (TxIdType × Int)) (s : Storage)
    (hm : (mempool.map Prod.fst).Nodup) (hs : (keysOf s.seen).Nodup) :
    ∃ pairs : List (TxIdType × Int),
      do_handle_sync_mempool mempool s
        = pairs.map (fun p => RestoreAction.sendRestore p.1)
            ++ [RestoreAction.setReadyFlag]
      ∧ pairs.Pairwise (fun a b => a.2 ≤ b.2)
      ∧ (pairs.map Prod.fst).Nodup
      ∧ List.Perm pairs (mempool ++ (get_all_un_consumed_txs s).filter
          (fun p => decide (p.1 ∉ mempool.map Prod.fst))) := by
  refine ⟨((mempool ++ (get_all_un_consumed_txs s).filter
      (fun p => decide (p.1 ∉ mempool.map Prod.fst))).mergeSort
        (fun a b => a.2 ≤ b.2)), rfl, ?_, ?_, ?_⟩
  · have htrans : ∀ a b c : TxIdType × Int,
        decide (a.2 ≤ b.2) = true → decide (b.2 ≤ c.2) = true →
        decide (a.2 ≤ c.2) = true := by
      intro a b c hab hbc
      simp only [decide_eq_true_eq] at hab hbc ⊢
      exact le_trans hab hbc
    have htotal : ∀ a b : TxIdType × Int,
        (decide (a.2 ≤ b.2) || decide (b.2 ≤ a.2)) = true := by
      intro a b
      simp only [Bool.or_eq_true, decide_eq_true_eq]
      exact Int.le_total a.2 b.2
    have hsorted := List.sorted_mergeSort htrans htotal
      (mempool ++ (get_all_un_consumed_txs s).filter
        (fun p => decide (p.1 ∉ mempool.map Prod.fst)))
    exact hsorted.imp (fun h => of_decide_eq_true h)
  · have hperm := List.mergeSort_perm (mempool ++ (get_all_un_consumed_txs s).filter
      (fun p => decide (p.1 ∉ mempool.map Prod.fst))) (fun a b => a.2 ≤ b.2)
    rw [(hperm.map Prod.fst).nodup_iff]
    rw [List.map_append]
    have hfsub : List.Sublist
        (((get_all_un_consumed_txs s).filter
          (fun p => decide (p.1 ∉ mempool.map Prod.fst))).map Prod.fst)
        ((get_all_un_consumed_txs s).map Prod.fst) :=
      ((get_all_un_consumed_txs s).filter_sublist).map Prod.fst
    have hfnd : (((get_all_un_consumed_txs s).filter
        (fun p => decide (p.1 ∉ mempool.map Prod.fst))).map Prod.fst).Nodup :=
      ((unconsumed_keys_sublist s).nodup hs).sublist hfsub
    refine hm.append hfnd ?_
    intro a ha hb
    rw [List.mem_map] at hb
    obtain ⟨p, hp, rfl⟩ := hb
    rw [List.mem_filter] at hp
    have hnot := of_decide_eq_true hp.2
    exact hnot ha
  · exact List.mergeSort_perm _ _

theorem c6_sync_mempool_restore_witness :
    ∃ pairs : List (TxIdType × Int),
      do_handle_sync_mempool [("a", 5)]
          (⟨[("b", ⟨3, false⟩)], []⟩ : Storage)
        = pairs.map (fun p => RestoreAction.sendRestore p.1)
            ++ [RestoreAction.setReadyFlag]
      ∧ pairs.Pairwise (fun a b => a.2 ≤ b.2)
      ∧ (pairs.map Prod.fst).Nodup
      ∧ List.Perm pairs ([("a", 5)] ++ (get_all_un_consumed_txs
            (⟨[("b", ⟨3, false⟩)], []⟩ : Storage)).filter
          (fun p => decide (p.1 ∉ [("a", (5 : Int))].map Prod.fst))) :=
  c6_sync_mempool_restore [("a", 5)] ⟨[("b", ⟨3, false⟩)], []⟩
    (by decide) (by decide)

/-! The balance invariant: the stored records after any event history are
characterized by the history, and the balance scan equals the
specification-side sum. -/

lemma remove_lookup_as (y x : TxIdType) (tgt : DeltaStatus) (s : Storage) :
    lookupTx x (remove_transaction_delta y tgt s).deltas
      = match lookupTx x s.deltas with
        | none => none
        | some r =>
            if y = x ∧ r.status = .active then some ⟨tgt, r.deltas⟩
            else some r := by
  cases h : lookupTx y s.deltas with
  | none =>
      rw [remove_noop_of_unknown y tgt s h]
      by_cases hyx : y = x
      · subst hyx
        rw [h]
      · cases hx : lookupTx x s.deltas <;> simp [hyx]
  | some r =>
      by_cases hr : r.status = .active
      · have hrm : remove_transaction_delta y tgt s
            = { s with deltas := setStatus y tgt s.deltas } := by
          simp [remove_transaction_delta, h, hr]
        rw [hrm]
        by_cases hyx : y = x
        · subst hyx
          show lookupTx y (setStatus y tgt s.deltas) = _
          rw [lookupTx_setStatus_self, h]
          simp [hr]
        · have hxy : x ≠ y := fun he => hyx he.symm
          show lookupTx x (setStatus y tgt s.deltas) = _
          rw [lookupTx_setStatus_ne x y tgt hxy]
          cases hx : lookupTx x s.deltas <;> simp [hyx]
      · have hrm : remove_transaction_delta y tgt s = s := by
          simp [remove_transaction_delta, h, hr]
        rw [hrm]
        by_cases hyx : y = x
        · subst hyx
          rw [h]
          simp [hr]
        · cases hx : lookupTx x s.deltas <;> simp [hyx]

lemma applyEvent_lookup (e : LedgerEvent) (s : Storage) (x : TxIdType) :
    lookupTx x (applyLedgerEvent s e).deltas
      = specStep x (lookupTx x s.deltas) e := by
  cases e with
  | updateDelta d =>
      show lookupTx x (add_transaction_delta d s).deltas = _
      cases h : lookupTx d.tx_id s.deltas with
      | some r =>
          rw [add_noop_of_some d s r h]
          by_cases hdx : d.tx_id = x
          · subst hdx
            rw [h]
            simp [specStep]
          · cases hx : lookupTx x s.deltas <;> simp [specStep, hdx]
      | none =>
          have hadd : (add_transaction_delta d s).deltas
              = s.deltas ++ [(d.tx_id, ⟨.active, d.deltas⟩)] := by
            simp [add_transaction_delta, h]
          rw [hadd]
          by_cases hdx : d.tx_id = x
          · subst hdx
            rw [h, lookupTx_append_of_none h]
            simp [lookupTx, specStep]
          · cases hx : lookupTx x s.deltas with
            | some r =>
                rw [lookupTx_append_of_some hx]
                simp [specStep]
            | none =>
                rw [lookupTx_append_of_none hx]
                simp [lookupTx, hdx, specStep]
  | txConfirmedEv y =>
      show lookupTx x (remove_transaction_delta y .confirmed s).deltas = _
      rw [remove_lookup_as]
      cases hx : lookupTx x s.deltas <;> simp [specStep]
  | txRemovedEv y =>
      show lookupTx x (remove_transaction_delta y .inActive s).deltas = _
      rw [remove_lookup_as]
      cases hx : lookupTx x s.deltas <;> simp [specStep]

lemma applyEvents_lookup (es : List LedgerEvent) (s : Storage) (x : TxIdType) :
    lookupTx x (applyLedgerEvents es s).deltas
      = es.foldl (specStep x) (lookupTx x s.deltas) := by
  induction es generalizing s with
  | nil => rfl
  | cons e rest ih =>
      show lookupTx x (applyLedgerEvents rest (applyLedgerEvent s e)).deltas = _
      rw [ih (applyLedgerEvent s e), applyEvent_lookup, List.foldl_cons]

lemma keysOf_remove (y : TxIdType) (tgt : DeltaStatus) (s : Storage) :
    keysOf (remove_transaction_delta y tgt s).deltas = keysOf s.deltas := by
  cases h : lookupTx y s.deltas with
  | none => rw [remove_noop_of_unknown y tgt s h]
  | some r =>
      by_cases hr : r.status = .active
      · simp [remove_transaction_delta, h, hr, keysOf_setStatus]
      · simp [remove_transaction_delta, h, hr]

lemma nodup_applyEvent (e : LedgerEvent) (s : Storage)
    (h : (keysOf s.deltas).Nodup) :
    (keysOf (applyLedgerEvent s e).deltas).Nodup := by
  cases e with
  | updateDelta d =>
      show (keysOf (add_transaction_delta d s).deltas).Nodup
      cases hl : lookupTx d.tx_id s.deltas with
      | some r =>
          rw [add_noop_of_some d s r hl]
          exact h
      | none =>
          have hmem := (lookupTx_eq_none_iff _ _).mp hl
          have hadd : (add_transaction_delta d s).deltas
              = s.deltas ++ [(d.tx_id, ⟨.active, d.deltas⟩)] := by
            simp [add_transaction_delta, hl]
          rw [hadd]
          simp only [keysOf, List.map_append, List.map_cons, List.map_nil]
          rw [List.nodup_append]
          refine ⟨h, List.nodup_singleton _, ?_⟩
          intro a ha hb
          simp only [List.mem_singleton] at hb
          subst hb
          exact hmem ha
  | txConfirmedEv y =>
      show (keysOf (remove_transaction_delta y .confirmed s).deltas).Nodup
      rw [keysOf_remove]
      exact h
  | txRemovedEv y =>
      show (keysOf (remove_transaction_delta y .inActive s).deltas).Nodup
      rw [keysOf_remove]
      exact h

lemma nodup_applyEvents (es : List LedgerEvent) :
    ∀ s : Storage, (keysOf s.deltas).Nodup →
      (keysOf (applyLedgerEvents es s).deltas).Nodup := by
  induction es with
  | nil => intro s h; exact h
  | cons e rest ih =>
      intro s h
      exact ih (applyLedgerEvent s e) (nodup_applyEvent e s h)

lemma specStep_ne_none_iff (x : TxIdType) (acc : Option DeltaRecord)
    (e : LedgerEvent) :
    specStep x acc e ≠ none ↔ (acc ≠ none ∨ eventTxIdOf e = some x) := by
  cases e with
  | updateDelta d =>
      cases acc with
      | none => by_cases hdx : d.tx_id = x <;> simp [specStep, eventTxIdOf, hdx]
      | some r => simp [specStep, eventTxIdOf]
  | txConfirmedEv y =>
      cases acc with
      | none => simp [specStep, eventTxIdOf]
      | some r =>
          simp only [specStep, eventTxIdOf]
          by_cases hc : y = x ∧ r.status = .active <;> simp [hc]
  | txRemovedEv y =>
      cases acc with
      | none => simp [specStep, eventTxIdOf]
      | some r =>
          simp only [specStep, eventTxIdOf]
          by_cases hc : y = x ∧ r.status = .active <;> simp [hc]

lemma foldl_specStep_ne_none (x : TxIdType) :
    ∀ (es : List LedgerEvent) (acc : Option DeltaRecord),
      es.foldl (specStep x) acc ≠ none ↔ (acc ≠ none ∨ x ∈ eventTxIds es)
  | [], acc => by simp [eventTxIds]
  | e :: rest, acc => by
      rw [List.foldl_cons, foldl_specStep_ne_none x rest (specStep x acc e),
        specStep_ne_none_iff]
      cases he : eventTxIdOf e with
      | none =>
          have hids : eventTxIds (e :: rest) = eventTxIds rest := by
            simp [eventTxIds, List.filterMap_cons, he]
          rw [hids]
          simp [he]
      | some tgt =>
          have hids : eventTxIds (e :: rest) = tgt :: eventTxIds rest := by
            simp [eventTxIds, List.filterMap_cons, he]
          rw [hids]
          simp only [List.mem_cons, he, Option.some_inj]
          constructor
          · rintro ((h | h) | h)
            · exact Or.inl h
            · exact Or.inr (Or.inl h.symm)
            · exact Or.inr (Or.inr h)
          · rintro (h | h | h)
            · exact Or.inl (Or.inl h)
            · exact Or.inl (Or.inr h.symm)
            · exact Or.inr h

lemma sum_assoc_by_keys (G : TxIdType → Option DeltaRecord → Int) :
    ∀ l : List (TxIdType × DeltaRecord), (keysOf l).Nodup →
      (l.map (fun p => G p.1 (some p.2))).sum
        = ((keysOf l).map (fun x => G x (lookupTx x l))).sum
  | [], _ => rfl
  | (k, r) :: rest, hnd => by
      have hnd' : (k :: keysOf rest).Nodup := hnd
      rw [List.nodup_cons] at hnd'
      obtain ⟨hk, hrest⟩ := hnd'
      have hhead : lookupTx k ((k, r) :: rest) = some r := by simp [lookupTx]
      have htail : (keysOf rest).map (fun x => G x (lookupTx x ((k, r) :: rest)))
          = (keysOf rest).map (fun x => G x (lookupTx x rest)) := by
        apply List.map_congr_left
        intro a ha
        have hak : ¬k = a := fun he => hk (he ▸ ha)
        simp [lookupTx, hak]
      show G k (some r) + (rest.map (fun p => G p.1 (some p.2))).sum
        = ((k :: keysOf rest).map (fun x => G x (lookupTx x ((k, r) :: rest)))).sum
      rw [List.map_cons, List.sum_cons, hhead, htail,
        sum_assoc_by_keys G rest hrest]

/-- Claim C1: for every sequence of `UpdateDelta`, `TxConfirmed` and
`TxRemoved` events applied to the initially empty ledger, `get_balance`
returns the specification-side sum of the amounts for the pair over all
recorded deltas whose current status is active or confirmed. -/
theorem c1_get_balance_invariant (es : List LedgerEvent) (a : AddressType)
    (t : TokenType) :
    get_balance a t (applyLedgerEvents es emptyStorage) = specBalance es a t := by
  set s := applyLedgerEvents es emptyStorage with hs
  have hnd : (keysOf s.deltas).Nodup := by
    rw [hs]
    exact nodup_applyEvents es emptyStorage List.nodup_nil
  have h3 : ∀ x, lookupTx x s.deltas = specRecord es x := by
    intro x
    rw [hs, applyEvents_lookup]
    rfl
  have h2 := sum_assoc_by_keys
    (fun _ o => match o with | some r => recordAmount a t r | none => 0)
    s.deltas hnd
  have h4 : (keysOf s.deltas).map (fun x =>
        match lookupTx x s.deltas with
        | some r => recordAmount a t r
        | none => 0)
      = (keysOf s.deltas).map (fun x =>
        match specRecord es x with
        | some r => recordAmount a t r
        | none => 0) := by
    apply List.map_congr_left
    intro x _
    rw [h3]
  have hmem : ∀ x, x ∈ keysOf s.deltas ↔ x ∈ (eventTxIds es).dedup := by
    intro x
    rw [List.mem_dedup]
    constructor
    · intro hx
      have hnn : lookupTx x s.deltas ≠ none := by
        rw [Ne, lookupTx_eq_none_iff]
        exact fun hc => hc hx
      rw [h3 x] at hnn
      rcases (foldl_specStep_ne_none x es none).mp hnn with h | h
      · exact absurd rfl h
      · exact h
    · intro hx
      have hnn : specRecord es x ≠ none :=
        (foldl_specStep_ne_none x es none).mpr (Or.inr hx)
      rw [← h3 x] at hnn
      by_contra hxk
      exact hnn ((lookupTx_eq_none_iff x s.deltas).mpr hxk)
  have hperm : List.Perm (keysOf s.deltas) (eventTxIds es).dedup := by
    apply List.perm_of_nodup_nodup_toFinset_eq hnd (List.nodup_dedup _)
    ext y
    simp only [List.mem_toFinset]
    exact hmem y
  calc get_balance a t s
      = ((keysOf s.deltas).map (fun x =>
          match lookupTx x s.deltas with
          | some r => recordAmount a t r
          | none => 0)).sum := h2
    _ = ((keysOf s.deltas).map (fun x =>
          match specRecord es x with
          | some r => recordAmount a t r
          | none => 0)).sum := by rw [h4]
    _ = (((eventTxIds es).dedup).map (fun x =>
          match specRecord es x with
          | some r => recordAmount a t r
          | none => 0)).sum :=
        (hperm.map _).sum_eq
    _ = specBalance es a t := rfl

end IndexerSdk
